import Mathlib

/-!
Verification of the nanos unikernel excerpt: PCI configuration access
(platform/pc/pci.c), the virtio-net receive checksum path
(src/virtio/virtio_net.c) and the AIO ring subsystem (src/unix/aio.c).

Machine integers are modelled as Nat (unsigned) or Int (signed C int),
with explicit reduction mod 2^32 or 2^64 where the C code wraps.
Byte buffers are lists of Nat, each element below 256.
-/

namespace NanosSpec

/-! ## virtio_net.c: vnet_csum (lines 142-188)

The C accumulation step is
  sum += s; if (sum < s) sum++;
on a w-bit unsigned integer, i.e. add modulo 2^w with end-around carry.
`addc m sum s` is that step with modulus m (m = 2^64, 2^32 or 2^16). -/

def addc (m sum s : Nat) : Nat :=
  if (sum + s) % m < s then (sum + s) % m + 1 else (sum + s) % m

/-- le16 a b is the value of the little-endian 16-bit load of bytes a, b. -/
def le16 (a b : Nat) : Nat := a + 256 * b

/-- le32 is the little-endian 32-bit load of four bytes. -/
def le32 (a b c d : Nat) : Nat := le16 a b + 2 ^ 16 * le16 c d

/-- le64 is the little-endian 64-bit load of eight bytes. -/
def le64 (a b c d e f g h : Nat) : Nat := le32 a b c d + 2 ^ 32 * le32 e f g h

/-- csum1 models the final `if (len)` single-byte step of vnet_csum.
It is only reached with at most one byte left. -/
def csum1 (sum : Nat) (l : List Nat) : Nat :=
  match l with
  | a :: _ => addc (2 ^ 64) sum a
  | [] => sum

/-- csum2 models the `if (len >= sizeof(u16))` step of vnet_csum.
It is only reached with at most three bytes left. -/
def csum2 (sum : Nat) (l : List Nat) : Nat :=
  match l with
  | a :: b :: rest => csum1 (addc (2 ^ 64) sum (le16 a b)) rest
  | rest => csum1 sum rest

/-- csum4 models the `if (len >= sizeof(u32))` step of vnet_csum.
It is only reached with at most seven bytes left. -/
def csum4 (sum : Nat) (l : List Nat) : Nat :=
  match l with
  | a :: b :: c :: d :: rest => csum2 (addc (2 ^ 64) sum (le32 a b c d)) rest
  | rest => csum2 sum rest

/-- csum_loop models the `while (len >= sizeof(u64))` loop of vnet_csum,
followed by the u32/u16/u8 tail steps. -/
def csum_loop (sum : Nat) (l : List Nat) : Nat :=
  match l with
  | a :: b :: c :: d :: e :: f :: g :: h :: rest =>
      csum_loop (addc (2 ^ 64) sum (le64 a b c d e f g h)) rest
  | rest => csum4 sum rest

/-- fold16 models the final fold of vnet_csum: the 64-bit sum is folded to
32 bits and then to 16 bits, with end-around carry at each step
(u32 s1 = sum; u32 s2 = sum >> 32; s1 += s2; if (s1 < s2) s1++; then the
same at 16 bits). The result is the value of s3 before the bitwise NOT. -/
def fold16 (sum : Nat) : Nat :=
  let s1 := addc (2 ^ 32) (sum % 2 ^ 32) (sum / 2 ^ 32)
  addc (2 ^ 16) (s1 % 2 ^ 16) (s1 / 2 ^ 16)

/-- vnet_csum buf is the value returned by vnet_csum on a buffer holding the
bytes of buf; `return ~s3` on a u16 is 65535 - s3. -/
def vnet_csum (buf : List Nat) : Nat := 65535 - fold16 (csum_loop 0 buf)

/-! Specification-level ones-complement checksum, written from the words of
the spec: the buffer is read as little-endian 16-bit words (a trailing odd
byte is zero-padded) and the words are added with end-around carry at 16
bits; the checksum is the bitwise NOT of that fold. -/

/-- words16 splits a byte list into its little-endian 16-bit words. -/
def words16 : List Nat → List Nat
  | a :: b :: rest => le16 a b :: words16 rest
  | [a] => [a]
  | [] => []

/-- eac16 is a 16-bit ones-complement (end-around-carry) addition on values
at most 65535. -/
def eac16 (a b : Nat) : Nat := if a + b ≤ 65535 then a + b else a + b - 65535

/-- ocsum is the 16-bit end-around-carry fold of a list of 16-bit words. -/
def ocsum (l : List Nat) : Nat := l.foldl eac16 0

/-- WS l is the plain Nat sum of the 16-bit words of a byte list. -/
def WS (l : List Nat) : Nat := (words16 l).sum

/-! ## virtio_net.c: the RX `input` closure (lines 190-230), checksum part -/

/-- virtio_net_hdr carries the fields of the virtio net header used by the
RX path; flags is u8, csum_start and csum_offset are u16. -/
structure virtio_net_hdr where
  flags : Nat
  csum_start : Nat
  csum_offset : Nat

/-- VIRTIO_NET_HDR_F_NEEDS_CSUM is bit 0 of the flags field. -/
def VIRTIO_NET_HDR_F_NEEDS_CSUM : Nat := 1

/-- storeU16le stores a 16-bit value little-endian at byte position pos.
List.set leaves the list unchanged when the position is out of range; the C
code would instead write out of the buffer bounds there. -/
def storeU16le (l : List Nat) (pos v : Nat) : List Nat :=
  (l.set pos (v % 256)).set (pos + 1) (v / 256 % 256)

/-- vnet_input models the checksum part of the RX `input` closure, applied
to the payload (the received bytes after the net header, of length len).
The C bound check is
  hdr->csum_start + hdr->csum_offset <= len - sizeof(u16)
with len an u64, so len - 2 wraps for len < 2. The result is none when the
packet is dropped before reaching the network stack, and some p when a
packet with payload p is handed to the stack. When csum_start exceeds the
payload length (reachable only through the wrapped bound) the C code would
read out of bounds; List.drop then yields the empty list instead. -/
def vnet_input (hdr : virtio_net_hdr) (payload : List Nat) : Option (List Nat) :=
  let len := payload.length
  if hdr.flags &&& VIRTIO_NET_HDR_F_NEEDS_CSUM ≠ 0 then
    if hdr.csum_start + hdr.csum_offset ≤ (len + (2 ^ 64 - 2)) % 2 ^ 64 then
      let csum := vnet_csum (payload.drop hdr.csum_start)
      some (storeU16le payload (hdr.csum_start + hdr.csum_offset) csum)
    else none
  else some payload

/-! ## platform/pc/pci.c: pci_cfgenable (lines 30-44) -/

/-- PCI_BUSMAX. Modelled from the spec: the header pci.h with the
PCI_BUSMAX, PCI_SLOTMAX, PCI_FUNCMAX and PCI_REGMAX constants is not part
of the excerpt; the spec data model gives bus at most 255, slot at most 31,
function at most 7 and reg at most 255. -/
def PCI_BUSMAX : Nat := 255

/-- PCI_SLOTMAX. Modelled from the spec (see PCI_BUSMAX). -/
def PCI_SLOTMAX : Nat := 31

/-- PCI_FUNCMAX. Modelled from the spec (see PCI_BUSMAX). -/
def PCI_FUNCMAX : Nat := 7

/-- PCI_REGMAX. Modelled from the spec (see PCI_BUSMAX). -/
def PCI_REGMAX : Nat := 255

/-- pci_cfgenable bus slot fn reg bytes returns the pair of the returned
data port (0 when configuration access is not enabled) and the list of
(port, value) writes performed with out32. The reg and bytes arguments are
C ints; the casts (unsigned)reg, (unsigned)bytes and the int operations
reg & (bytes - 1) and reg & ~0x03 are computed on the 32-bit unsigned
residues. -/
def pci_cfgenable (bus slot fn : Nat) (reg bytes : Int) : Nat × List (Nat × Nat) :=
  let ureg : Nat := (reg % 2 ^ 32).toNat
  let umask : Nat := ((bytes - 1) % 2 ^ 32).toNat
  let ubytes : Nat := (bytes % 2 ^ 32).toNat
  if bus ≤ PCI_BUSMAX ∧ slot ≤ PCI_SLOTMAX ∧ fn ≤ PCI_FUNCMAX ∧
      ureg ≤ PCI_REGMAX ∧ bytes ≠ 3 ∧ ubytes ≤ 4 ∧ ureg &&& umask = 0 then
    (0xcfc + (ureg &&& 3),
     [(0xcf8, 2 ^ 31 ||| (bus <<< 16) ||| (slot <<< 11) ||| (fn <<< 8) |||
              (ureg &&& 0xfffffffc))])
  else (0, [])

/-! ## unix/aio.c: the AIO ring -/

/-- io_event mirrors struct io_event: data, obj are u64, res and res2 are
signed 64-bit results. -/
structure io_event where
  data : Nat
  obj : Nat
  res : Int
  res2 : Int
deriving DecidableEq

/-- aio_ring_s mirrors struct aio_ring (lines 12-22): the eight u32 header
fields followed by the io_event array, modelled as a list. -/
structure aio_ring_s where
  id : Nat
  nr : Nat
  head : Nat
  tail : Nat
  magic : Nat
  compat_features : Nat
  incompat_features : Nat
  header_length : Nat
  events : List io_event
deriving DecidableEq

/-- AIO_RING_MAGIC from aio.c line 3. -/
def AIO_RING_MAGIC : Nat := 0xa10a10a1

/-- EAGAIN, EFAULT, EINVAL errno values, as used by the sysreturn paths. -/
def EAGAIN : Int := 11

/-- EFAULT errno. -/
def EFAULT : Int := 14

/-- EINVAL errno. -/
def EINVAL : Int := 22

/-- io_setup models io_setup (lines 82-126). writable is the result of
fault_in_user_memory on ctx_idp; nr_events is the u32 argument;
init_events is the content the freshly mapped ring memory happens to hold
(io_setup performs no store to the event area); ring_id is the id
allocated by aio_alloc. Physical allocation and mapping are modelled as
succeeding; the ENOMEM paths are omitted. The u32 increment
nr_events += 1 wraps modulo 2^32. -/
def io_setup (writable : Bool) (nr_events : Nat) (init_events : List io_event)
    (ring_id : Nat) : Except Int aio_ring_s :=
  if ¬ writable then .error (-EFAULT)
  else if nr_events = 0 then .error (-EINVAL)
  else
    .ok { id := ring_id
          nr := (nr_events + 1) % 2 ^ 32
          head := 0
          tail := 0
          magic := AIO_RING_MAGIC
          compat_features := 1
          incompat_features := 0
          header_length := 32
          events := init_events }

/-- aio_avail_events models aio_avail_events (lines 191-198). head and
tail are the u32 ring header indices, nr is the u32 kernel-side slot
count. The C code computes int avail = head - tail as a 32-bit unsigned
subtraction reinterpreted as a signed int, adds nr if avail <= 0, and
returns the result converted back to unsigned int. -/
def aio_avail_events (head tail nr : Nat) : Nat :=
  let d : Nat := (head + 2 ^ 32 - tail) % 2 ^ 32
  let avail : Int := if d < 2 ^ 31 then (d : Int) else (d : Int) - 2 ^ 32
  let avail2 : Int := if avail ≤ 0 then avail + nr else avail
  (avail2 % 2 ^ 32).toNat

/-- iocb_enqueue models the admission decision of iocb_enqueue
(lines 222-229): under the lock, refuse when
ongoing_ops >= aio_avail_events(aio) - 1 (u32 comparison, the - 1 wraps),
else increment ongoing_ops. none models the -EAGAIN return, some o the
new ongoing_ops value published before the lock is released. -/
def iocb_enqueue (ongoing head tail nr : Nat) : Option Nat :=
  if (aio_avail_events head tail nr + 2 ^ 32 - 1) % 2 ^ 32 ≤ ongoing then none
  else some (ongoing + 1)

/-- available_slots follows the words of the spec: available slots are
(head - tail) mod nr, taken as nr when the difference is zero. -/
def available_slots (head tail nr : Nat) : Nat :=
  if (head + nr - tail) % nr = 0 then nr else (head + nr - tail) % nr

/-- aio_complete_step models the ring update of the aio_complete closure
(lines 146-158), performed under the context lock: decrement ongoing_ops
(u32), clamp the tail read from the shared ring header to 0 when it is at
least the kernel-side nr, store data, obj and the result rv into the
fields data, obj and res of events[tail] (res2 is not written), advance
tail by one wrapping to 0 at nr, and store it back. The result is
(ongoing_ops, stored tail, events) after the update. List.set leaves the
list unchanged when the clamped tail is not below the list length; the C
code would instead write past the event array (possible only when nr
exceeds the number of allocated slots). -/
def aio_complete_step (nr ongoing tail0 : Nat) (events : List io_event)
    (data obj : Nat) (rv : Int) : Nat × Nat × List io_event :=
  let ongoing2 := (ongoing + 2 ^ 32 - 1) % 2 ^ 32
  let t1 := if nr ≤ tail0 then 0 else tail0
  let old := events.getD t1 ⟨0, 0, 0, 0⟩
  let events2 := events.set t1 { data := data, obj := obj, res := rv, res2 := old.res2 }
  let t2 := if t1 + 1 = nr then 0 else t1 + 1
  (ongoing2, t2, events2)

/-- io_getevents models the entry path of io_getevents (lines 388-409)
together with aio_from_ring_id (lines 61-68). valid_mem is the
conjunction of the validate_user_memory checks; live says whether
vector_get(p->aio, ctx_id->id) yields a context (it yields 0 for an id
that was never allocated or was destroyed). When live is false,
aio_from_ring_id calls refcount_reserve(&aio->refcount) with aio == 0
before any null check; that null dereference faults, and the fault is
taken by the error frame installed by context_set_err, making the syscall
return -EFAULT (the `!aio` EINVAL branch at line 400 is unreachable).
The return value 0 stands for proceeding into the blockq wait path. -/
def io_getevents (valid_mem live : Bool) (min_nr nr : Int) : Int :=
  if ¬ valid_mem then -EFAULT
  else if ¬ live then -EFAULT
  else if nr ≤ 0 ∨ nr < min_nr then -EINVAL
  else 0

/-- io_submit_go models the submission loop of io_submit (lines 306-322):
rs lists the outcomes of the successive iocb_enqueue calls (with -EFAULT
standing for a faulting read of iocbpp[i]), truncated to nr entries; i is
the loop counter io_ops. On the first nonzero outcome the loop breaks,
returning the outcome itself when i == 0 and the count i otherwise; when
all outcomes are zero the loop returns the number of entries. -/
def io_submit_go (i : Nat) (rs : List Int) : Int :=
  match rs with
  | [] => (i : Int)
  | rv :: rest => if rv ≠ 0 then (if i = 0 then rv else (i : Int)) else io_submit_go (i + 1) rest

/-- io_submit models io_submit (lines 293-325) over a valid context,
given the list of per-iocb enqueue outcomes for the nr requested iocbs. -/
def io_submit (rs : List Int) : Int := io_submit_go 0 rs

/-- firstFailure follows the words of the spec: the index of the first
failing enqueue together with its error, none when every enqueue
succeeds. -/
def firstFailure : List Int → Option (Nat × Int)
  | [] => none
  | rv :: rest =>
      if rv ≠ 0 then some (0, rv)
      else (firstFailure rest).map (fun p => (p.1 + 1, p.2))

/-! ## Arithmetic facts about the end-around-carry step -/

theorem add_mod_two_cases (m sum s : Nat) (h1 : sum < m) (h2 : s < m) :
    (sum + s) % m = if sum + s < m then sum + s else sum + s - m := by
  split
  · exact Nat.mod_eq_of_lt (by assumption)
  · rw [Nat.mod_eq_sub_mod (by omega)]
    exact Nat.mod_eq_of_lt (by omega)

theorem addc_eq (m sum s : Nat) (h1 : sum < m) (h2 : s < m) :
    addc m sum s = if sum + s < m then sum + s else sum + s - (m - 1) := by
  unfold addc
  rw [add_mod_two_cases m sum s h1 h2]
  by_cases h : sum + s < m
  · simp only [if_pos h]
    have hns : ¬ (sum + s < s) := by omega
    rw [if_neg hns]
  · simp only [if_neg h]
    have hlt : sum + s - m < s := by omega
    rw [if_pos hlt]
    omega

theorem addc_lt (m sum s : Nat) (h1 : sum < m) (h2 : s < m) : addc m sum s < m := by
  rw [addc_eq m sum s h1 h2]; split <;> omega

theorem addc_modeq (m sum s : Nat) (hd : (65535 : Nat) ∣ m - 1) (h1 : sum < m)
    (h2 : s < m) : addc m sum s ≡ sum + s [MOD 65535] := by
  rw [addc_eq m sum s h1 h2]
  split
  · rfl
  · refine (Nat.modEq_iff_dvd' (by omega)).2 ?_
    have he : sum + s - (sum + s - (m - 1)) = m - 1 := by omega
    rw [he]; exact hd

theorem addc_eq_zero (m sum s : Nat) (h1 : sum < m) (h2 : s < m) :
    addc m sum s = 0 ↔ sum = 0 ∧ s = 0 := by
  rw [addc_eq m sum s h1 h2]; split <;> omega

theorem dvd_pow64 : (65535 : Nat) ∣ 2 ^ 64 - 1 := Nat.dvd_of_mod_eq_zero (by norm_num)

theorem dvd_pow32 : (65535 : Nat) ∣ 2 ^ 32 - 1 := Nat.dvd_of_mod_eq_zero (by norm_num)

theorem dvd_pow16 : (65535 : Nat) ∣ 2 ^ 16 - 1 := Nat.dvd_of_mod_eq_zero (by norm_num)

theorem split_modeq (m x : Nat) (hd : (65535 : Nat) ∣ m - 1) (hm : 1 ≤ m) :
    x % m + x / m ≡ x [MOD 65535] := by
  have h1m : (1 : Nat) ≡ m [MOD 65535] := (Nat.modEq_iff_dvd' hm).2 hd
  calc x % m + x / m ≡ x % m + m * (x / m) [MOD 65535] :=
        Nat.ModEq.add_left _ (by simpa using h1m.mul_right (x / m))
    _ = x := Nat.mod_add_div x m

/-! ## Word values of byte groups -/

theorem le16_le (a b : Nat) (ha : a < 256) (hb : b < 256) : le16 a b ≤ 65535 := by
  unfold le16; omega

theorem le32_lt (a b c d : Nat) (ha : a < 256) (hb : b < 256) (hc : c < 256)
    (hd : d < 256) : le32 a b c d < 2 ^ 32 := by
  simp only [le32, le16]; omega

theorem le64_lt (a b c d e f g h : Nat) (ha : a < 256) (hb : b < 256) (hc : c < 256)
    (hd : d < 256) (he : e < 256) (hf : f < 256) (hg : g < 256) (hh : h < 256) :
    le64 a b c d e f g h < 2 ^ 64 := by
  simp only [le64, le32, le16]; omega

theorem le32_modeq (a b c d : Nat) : le32 a b c d ≡ le16 a b + le16 c d [MOD 65535] := by
  unfold le32
  have h : (2 ^ 16 : Nat) ≡ 1 [MOD 65535] := by decide
  calc le16 a b + 2 ^ 16 * le16 c d ≡ le16 a b + 1 * le16 c d [MOD 65535] :=
        Nat.ModEq.add_left _ (h.mul_right _)
    _ = le16 a b + le16 c d := by ring

theorem le64_modeq (a b c d e f g h : Nat) :
    le64 a b c d e f g h ≡ (le16 a b + le16 c d) + (le16 e f + le16 g h) [MOD 65535] := by
  unfold le64
  have hp : (2 ^ 32 : Nat) ≡ 1 [MOD 65535] := by decide
  calc le32 a b c d + 2 ^ 32 * le32 e f g h
      ≡ le32 a b c d + 1 * le32 e f g h [MOD 65535] :=
        Nat.ModEq.add_left _ (hp.mul_right _)
    _ = le32 a b c d + le32 e f g h := by ring
    _ ≡ (le16 a b + le16 c d) + (le16 e f + le16 g h) [MOD 65535] :=
        (le32_modeq a b c d).add (le32_modeq e f g h)

theorem words16_cons2 (a b : Nat) (l : List Nat) :
    words16 (a :: b :: l) = le16 a b :: words16 l := rfl

theorem WS_nil : WS [] = 0 := rfl

theorem WS_one (a : Nat) : WS [a] = a := by simp [WS, words16]

theorem WS_cons2 (a b : Nat) (l : List Nat) : WS (a :: b :: l) = le16 a b + WS l := by
  simp [WS, words16_cons2]

theorem words16_le : ∀ (l : List Nat), (∀ x ∈ l, x < 256) → ∀ w ∈ words16 l, w ≤ 65535
  | [], _ => by simp [words16]
  | [a], hb => by
      intro w hw
      simp [words16] at hw
      have := hb a (by simp)
      omega
  | a :: b :: rest, hb => by
      intro w hw
      rw [words16_cons2] at hw
      rcases List.mem_cons.1 hw with hw1 | hw2
      · subst hw1
        exact le16_le a b (hb a (by simp)) (hb b (by simp))
      · exact words16_le rest (fun x hx => hb x (by simp [hx])) w hw2

/-! ## The vnet_csum accumulation chain -/

theorem csum1_spec (sum : Nat) (l : List Nat) (hb : ∀ x ∈ l, x < 256)
    (hl : l.length ≤ 1) (hs : sum < 2 ^ 64) :
    csum1 sum l < 2 ^ 64 ∧ csum1 sum l ≡ sum + WS l [MOD 65535] ∧
      (csum1 sum l = 0 ↔ sum = 0 ∧ WS l = 0) := by
  rcases l with _ | ⟨a, _ | ⟨b, rest⟩⟩
  · refine ⟨hs, ?_, by simp [csum1, WS_nil]⟩
    show sum ≡ sum + WS [] [MOD 65535]
    rw [WS_nil, Nat.add_zero]
  · have ha : a < 256 := hb a (by simp)
    have ha64 : a < 2 ^ 64 := by omega
    refine ⟨addc_lt _ _ _ hs ha64, ?_, ?_⟩
    · show addc (2 ^ 64) sum a ≡ sum + WS [a] [MOD 65535]
      rw [WS_one]
      exact addc_modeq _ _ _ dvd_pow64 hs ha64
    · show addc (2 ^ 64) sum a = 0 ↔ sum = 0 ∧ WS [a] = 0
      rw [WS_one]
      exact addc_eq_zero _ _ _ hs ha64
  · simp at hl

theorem csum2_spec (sum : Nat) (l : List Nat) (hb : ∀ x ∈ l, x < 256)
    (hl : l.length ≤ 3) (hs : sum < 2 ^ 64) :
    csum2 sum l < 2 ^ 64 ∧ csum2 sum l ≡ sum + WS l [MOD 65535] ∧
      (csum2 sum l = 0 ↔ sum = 0 ∧ WS l = 0) := by
  rcases l with _ | ⟨a, _ | ⟨b, rest⟩⟩
  · exact csum1_spec sum [] hb (by simp) hs
  · exact csum1_spec sum [a] hb (by simp) hs
  · have ha : a < 256 := hb a (by simp)
    have hb2 : b < 256 := hb b (by simp)
    have hw : le16 a b < 2 ^ 64 := by have := le16_le a b ha hb2; omega
    have h1 : addc (2 ^ 64) sum (le16 a b) < 2 ^ 64 := addc_lt _ _ _ hs hw
    obtain ⟨c1, c2, c3⟩ := csum1_spec (addc (2 ^ 64) sum (le16 a b)) rest
      (fun x hx => hb x (by simp [hx])) (by simpa using hl) h1
    refine ⟨c1, ?_, ?_⟩
    · calc csum2 sum (a :: b :: rest) = csum1 (addc (2 ^ 64) sum (le16 a b)) rest := rfl
        _ ≡ addc (2 ^ 64) sum (le16 a b) + WS rest [MOD 65535] := c2
        _ ≡ (sum + le16 a b) + WS rest [MOD 65535] :=
            Nat.ModEq.add_right _ (addc_modeq _ _ _ dvd_pow64 hs hw)
        _ = sum + WS (a :: b :: rest) := by rw [WS_cons2]; ring
    · rw [show csum2 sum (a :: b :: rest) = csum1 (addc (2 ^ 64) sum (le16 a b)) rest
        from rfl, c3, addc_eq_zero _ _ _ hs hw, WS_cons2]
      omega

theorem csum4_spec (sum : Nat) (l : List Nat) (hb : ∀ x ∈ l, x < 256)
    (hl : l.length ≤ 7) (hs : sum < 2 ^ 64) :
    csum4 sum l < 2 ^ 64 ∧ csum4 sum l ≡ sum + WS l [MOD 65535] ∧
      (csum4 sum l = 0 ↔ sum = 0 ∧ WS l = 0) := by
  rcases l with _ | ⟨a, _ | ⟨b, _ | ⟨c, _ | ⟨d, rest⟩⟩⟩⟩
  · exact csum2_spec sum [] hb (by simp) hs
  · exact csum2_spec sum [a] hb (by simp) hs
  · exact csum2_spec sum [a, b] hb (by simp) hs
  · exact csum2_spec sum [a, b, c] hb (by simp) hs
  · have ha : a < 256 := hb a (by simp)
    have hb2 : b < 256 := hb b (by simp)
    have hc : c < 256 := hb c (by simp)
    have hd : d < 256 := hb d (by simp)
    have hw : le32 a b c d < 2 ^ 64 := by have := le32_lt a b c d ha hb2 hc hd; omega
    have h1 : addc (2 ^ 64) sum (le32 a b c d) < 2 ^ 64 := addc_lt _ _ _ hs hw
    obtain ⟨c1, c2, c3⟩ := csum2_spec (addc (2 ^ 64) sum (le32 a b c d)) rest
      (fun x hx => hb x (by simp [hx])) (by simp at hl; omega) h1
    refine ⟨c1, ?_, ?_⟩
    · calc csum4 sum (a :: b :: c :: d :: rest)
          = csum2 (addc (2 ^ 64) sum (le32 a b c d)) rest := rfl
        _ ≡ addc (2 ^ 64) sum (le32 a b c d) + WS rest [MOD 65535] := c2
        _ ≡ (sum + le32 a b c d) + WS rest [MOD 65535] :=
            Nat.ModEq.add_right _ (addc_modeq _ _ _ dvd_pow64 hs hw)
        _ ≡ (sum + (le16 a b + le16 c d)) + WS rest [MOD 65535] :=
            Nat.ModEq.add_right _ (Nat.ModEq.add_left _ (le32_modeq a b c d))
        _ = sum + WS (a :: b :: c :: d :: rest) := by rw [WS_cons2, WS_cons2]; ring
    · rw [show csum4 sum (a :: b :: c :: d :: rest)
          = csum2 (addc (2 ^ 64) sum (le32 a b c d)) rest from rfl,
        c3, addc_eq_zero _ _ _ hs hw, WS_cons2, WS_cons2]
      simp only [le32]
      omega

theorem csum_loop_spec : ∀ (sum : Nat) (l : List Nat), (∀ x ∈ l, x < 256) →
    sum < 2 ^ 64 →
    csum_loop sum l < 2 ^ 64 ∧ csum_loop sum l ≡ sum + WS l [MOD 65535] ∧
      (csum_loop sum l = 0 ↔ sum = 0 ∧ WS l = 0)
  | sum, [], hb, hs => csum4_spec sum [] hb (by simp) hs
  | sum, [a], hb, hs => csum4_spec sum [a] hb (by simp) hs
  | sum, [a, b], hb, hs => csum4_spec sum [a, b] hb (by simp) hs
  | sum, [a, b, c], hb, hs => csum4_spec sum [a, b, c] hb (by simp) hs
  | sum, [a, b, c, d], hb, hs => csum4_spec sum [a, b, c, d] hb (by simp) hs
  | sum, [a, b, c, d, e], hb, hs => csum4_spec sum [a, b, c, d, e] hb (by simp) hs
  | sum, [a, b, c, d, e, f], hb, hs => csum4_spec sum [a, b, c, d, e, f] hb (by simp) hs
  | sum, [a, b, c, d, e, f, g], hb, hs => csum4_spec sum [a, b, c, d, e, f, g] hb (by simp) hs
  | sum, a :: b :: c :: d :: e :: f :: g :: h :: rest, hb, hs => by
    have ha : a < 256 := hb a (by simp)
    have hb2 : b < 256 := hb b (by simp)
    have hc : c < 256 := hb c (by simp)
    have hd : d < 256 := hb d (by simp)
    have he : e < 256 := hb e (by simp)
    have hf : f < 256 := hb f (by simp)
    have hg : g < 256 := hb g (by simp)
    have hh : h < 256 := hb h (by simp)
    have hw : le64 a b c d e f g h < 2 ^ 64 := le64_lt a b c d e f g h ha hb2 hc hd he hf hg hh
    have h1 : addc (2 ^ 64) sum (le64 a b c d e f g h) < 2 ^ 64 := addc_lt _ _ _ hs hw
    obtain ⟨c1, c2, c3⟩ := csum_loop_spec (addc (2 ^ 64) sum (le64 a b c d e f g h)) rest
      (fun x hx => hb x (by simp [hx])) h1
    refine ⟨c1, ?_, ?_⟩
    · calc csum_loop sum (a :: b :: c :: d :: e :: f :: g :: h :: rest)
          = csum_loop (addc (2 ^ 64) sum (le64 a b c d e f g h)) rest := rfl
        _ ≡ addc (2 ^ 64) sum (le64 a b c d e f g h) + WS rest [MOD 65535] := c2
        _ ≡ (sum + le64 a b c d e f g h) + WS rest [MOD 65535] :=
            Nat.ModEq.add_right _ (addc_modeq _ _ _ dvd_pow64 hs hw)
        _ ≡ (sum + ((le16 a b + le16 c d) + (le16 e f + le16 g h))) + WS rest [MOD 65535] :=
            Nat.ModEq.add_right _ (Nat.ModEq.add_left _ (le64_modeq a b c d e f g h))
        _ = sum + WS (a :: b :: c :: d :: e :: f :: g :: h :: rest) := by
            rw [WS_cons2, WS_cons2, WS_cons2, WS_cons2]; ring
    · rw [show csum_loop sum (a :: b :: c :: d :: e :: f :: g :: h :: rest)
          = csum_loop (addc (2 ^ 64) sum (le64 a b c d e f g h)) rest from rfl,
        c3, addc_eq_zero _ _ _ hs hw, WS_cons2, WS_cons2, WS_cons2, WS_cons2]
      simp only [le64, le32]
      omega

theorem fold16_spec (v : Nat) (hv : v < 2 ^ 64) :
    fold16 v ≤ 65535 ∧ fold16 v ≡ v [MOD 65535] ∧ (fold16 v = 0 ↔ v = 0) := by
  have h1a : v % 2 ^ 32 < 2 ^ 32 := Nat.mod_lt _ (by norm_num)
  have h1b : v / 2 ^ 32 < 2 ^ 32 := by omega
  have hs1lt := addc_lt (2 ^ 32) (v % 2 ^ 32) (v / 2 ^ 32) h1a h1b
  have hs1m := addc_modeq (2 ^ 32) (v % 2 ^ 32) (v / 2 ^ 32) dvd_pow32 h1a h1b
  have hs1z := addc_eq_zero (2 ^ 32) (v % 2 ^ 32) (v / 2 ^ 32) h1a h1b
  set s1 := addc (2 ^ 32) (v % 2 ^ 32) (v / 2 ^ 32) with hs1def
  have h2a : s1 % 2 ^ 16 < 2 ^ 16 := Nat.mod_lt _ (by norm_num)
  have h2b : s1 / 2 ^ 16 < 2 ^ 16 := by omega
  have hs3lt := addc_lt (2 ^ 16) (s1 % 2 ^ 16) (s1 / 2 ^ 16) h2a h2b
  have hs3m := addc_modeq (2 ^ 16) (s1 % 2 ^ 16) (s1 / 2 ^ 16) dvd_pow16 h2a h2b
  have hs3z := addc_eq_zero (2 ^ 16) (s1 % 2 ^ 16) (s1 / 2 ^ 16) h2a h2b
  have hf : fold16 v = addc (2 ^ 16) (s1 % 2 ^ 16) (s1 / 2 ^ 16) := rfl
  refine ⟨by rw [hf]; omega, ?_, ?_⟩
  · rw [hf]
    calc addc (2 ^ 16) (s1 % 2 ^ 16) (s1 / 2 ^ 16)
        ≡ s1 % 2 ^ 16 + s1 / 2 ^ 16 [MOD 65535] := hs3m
      _ ≡ s1 [MOD 65535] := split_modeq (2 ^ 16) s1 dvd_pow16 (by norm_num)
      _ ≡ v % 2 ^ 32 + v / 2 ^ 32 [MOD 65535] := hs1m
      _ ≡ v [MOD 65535] := split_modeq (2 ^ 32) v dvd_pow32 (by norm_num)
  · rw [hf, hs3z]
    omega

/-! ## The spec-level fold -/

theorem eac16_le (a b : Nat) (ha : a ≤ 65535) (hb : b ≤ 65535) : eac16 a b ≤ 65535 := by
  unfold eac16; split <;> omega

theorem eac16_modeq (a b : Nat) : eac16 a b ≡ a + b [MOD 65535] := by
  unfold eac16
  split
  · rfl
  · refine (Nat.modEq_iff_dvd' (by omega)).2 ?_
    have he : a + b - (a + b - 65535) = 65535 := by omega
    rw [he]

theorem eac16_eq_zero (a b : Nat) : eac16 a b = 0 ↔ a = 0 ∧ b = 0 := by
  unfold eac16; split <;> omega

theorem ocsum_go (l : List Nat) : ∀ acc : Nat, acc ≤ 65535 → (∀ w ∈ l, w ≤ 65535) →
    l.foldl eac16 acc ≤ 65535 ∧ l.foldl eac16 acc ≡ acc + l.sum [MOD 65535] ∧
      (l.foldl eac16 acc = 0 ↔ acc = 0 ∧ l.sum = 0) := by
  induction l with
  | nil =>
    intro acc ha _
    refine ⟨by simpa using ha, ?_, by simp⟩
    show acc ≡ acc + List.sum [] [MOD 65535]
    rw [List.sum_nil, Nat.add_zero]
  | cons w rest ih =>
    intro acc ha hw
    have hw1 : w ≤ 65535 := hw w (by simp)
    have he : eac16 acc w ≤ 65535 := eac16_le acc w ha hw1
    obtain ⟨i1, i2, i3⟩ := ih (eac16 acc w) he (fun x hx => hw x (by simp [hx]))
    refine ⟨by simpa using i1, ?_, ?_⟩
    · calc (w :: rest).foldl eac16 acc = rest.foldl eac16 (eac16 acc w) := by simp
        _ ≡ eac16 acc w + rest.sum [MOD 65535] := i2
        _ ≡ (acc + w) + rest.sum [MOD 65535] := Nat.ModEq.add_right _ (eac16_modeq acc w)
        _ = acc + (w :: rest).sum := by simp; ring
    · rw [show (w :: rest).foldl eac16 acc = rest.foldl eac16 (eac16 acc w) from by simp,
        i3, eac16_eq_zero]
      simp only [List.sum_cons]
      omega

theorem bounded_modeq_eq (a b : Nat) (ha : a ≤ 65535) (hb : b ≤ 65535) (ha0 : a ≠ 0)
    (hb0 : b ≠ 0) (h : a ≡ b [MOD 65535]) : a = b := by
  rcases Nat.le_total a b with hle | hle
  · have hd := (Nat.modEq_iff_dvd' hle).1 h
    have := Nat.eq_zero_of_dvd_of_lt hd (by omega)
    omega
  · have hd := (Nat.modEq_iff_dvd' hle).1 h.symm
    have := Nat.eq_zero_of_dvd_of_lt hd (by omega)
    omega

/-- C7: vnet_csum returns the bitwise NOT of the ones-complement
(end-around-carry) fold of the buffer, for every buffer of bytes: the
64-bit accumulation with add-carry, the u32/u16/u8 tail steps and the
64-to-32-to-16 folds together compute exactly the 16-bit end-around-carry
sum of the little-endian 16-bit words of the buffer, and the returned
value is its 16-bit complement. -/
theorem vnet_csum_ones_complement (buf : List Nat) (hb : ∀ x ∈ buf, x < 256) :
    vnet_csum buf = 65535 - ocsum (words16 buf) := by
  obtain ⟨l1, l2, l3⟩ := csum_loop_spec 0 buf hb (by norm_num)
  obtain ⟨f1, f2, f3⟩ := fold16_spec (csum_loop 0 buf) l1
  obtain ⟨o1, o2, o3⟩ := ocsum_go (words16 buf) 0 (by norm_num) (words16_le buf hb)
  have hws : (words16 buf).sum = WS buf := rfl
  have hmf : fold16 (csum_loop 0 buf) ≡ WS buf [MOD 65535] :=
    f2.trans (by simpa using l2)
  have hmo : ocsum (words16 buf) ≡ WS buf [MOD 65535] := by
    simpa [ocsum, hws] using o2
  have hzf : fold16 (csum_loop 0 buf) = 0 ↔ WS buf = 0 := by rw [f3, l3]; simp
  have hzo : ocsum (words16 buf) = 0 ↔ WS buf = 0 := by
    unfold ocsum; rw [o3, hws]; simp
  have hkey : fold16 (csum_loop 0 buf) = ocsum (words16 buf) := by
    by_cases hz : WS buf = 0
    · rw [hzf.2 hz, hzo.2 hz]
    · exact bounded_modeq_eq _ _ f1 o1 (fun h2 => hz (hzf.1 h2))
        (fun h2 => hz (hzo.1 h2)) (hmf.trans hmo.symm)
  unfold vnet_csum
  rw [hkey]

/-- C7, witness: the theorem applied to the 46 bytes [14..60) of a concrete
60-byte frame (an IPv4/TCP packet with csum_start = 14). -/
theorem vnet_csum_ones_complement_witness :
    vnet_csum [69, 0, 0, 46, 18, 52, 64, 0, 64, 6, 0, 0, 10, 0, 0, 1, 10, 0,
      0, 2, 0, 80, 31, 144, 0, 0, 0, 1, 0, 0, 0, 0, 80, 2, 32, 0, 0, 0, 0, 0,
      97, 98, 99, 100, 101, 102] =
    65535 - ocsum (words16 [69, 0, 0, 46, 18, 52, 64, 0, 64, 6, 0, 0, 10, 0,
      0, 1, 10, 0, 0, 2, 0, 80, 31, 144, 0, 0, 0, 1, 0, 0, 0, 0, 80, 2, 32,
      0, 0, 0, 0, 0, 97, 98, 99, 100, 101, 102]) :=
  vnet_csum_ones_complement _ (by decide)

/-- C6 counterexample: a zero-length payload with NEEDS_CSUM set and
csum_start = csum_offset = 0 is mathematically out of bounds (0 does not
satisfy 0 + 0 <= 0 - 2), so the claim requires the packet to be dropped;
the code computes len - 2 in u64 arithmetic, the subtraction wraps, the
bound check passes and the packet is handed to the stack. -/
theorem vnet_input_short_payload :
    vnet_input ⟨1, 0, 0⟩ [] = some [] ∧ vnet_input ⟨1, 0, 0⟩ [] ≠ none := by decide

/-- C6 amended: for frames with NEEDS_CSUM set, when the payload is at
least 2 bytes long the claim holds as stated: in-bounds csum_start +
csum_offset (at most len - 2) makes the driver store the vnet_csum of the
payload from csum_start at csum_start + csum_offset and deliver the
packet, and out-of-bounds makes it drop the packet; but for payloads
shorter than 2 bytes the u64 bound len - 2 wraps, so every such frame
passes the check and is processed rather than dropped. -/
theorem vnet_input_bounds (hdr : virtio_net_hdr) (payload : List Nat)
    (hcs : hdr.csum_start < 2 ^ 16) (hco : hdr.csum_offset < 2 ^ 16)
    (hlen : payload.length < 2 ^ 64)
    (hfl : hdr.flags &&& VIRTIO_NET_HDR_F_NEEDS_CSUM ≠ 0) :
    (2 ≤ payload.length → hdr.csum_start + hdr.csum_offset ≤ payload.length - 2 →
      vnet_input hdr payload =
        some (storeU16le payload (hdr.csum_start + hdr.csum_offset)
          (vnet_csum (payload.drop hdr.csum_start)))) ∧
    (2 ≤ payload.length → payload.length - 2 < hdr.csum_start + hdr.csum_offset →
      vnet_input hdr payload = none) ∧
    (payload.length < 2 → vnet_input hdr payload ≠ none) := by
  refine ⟨?_, ?_, ?_⟩
  · intro h2 hin
    have hcond : hdr.csum_start + hdr.csum_offset ≤
        (payload.length + (2 ^ 64 - 2)) % 2 ^ 64 := by omega
    simp only [vnet_input, if_pos hfl, if_pos hcond]
  · intro h2 hout
    have hcond : ¬ (hdr.csum_start + hdr.csum_offset ≤
        (payload.length + (2 ^ 64 - 2)) % 2 ^ 64) := by omega
    simp only [vnet_input, if_pos hfl, if_neg hcond]
  · intro h2
    have hcond : hdr.csum_start + hdr.csum_offset ≤
        (payload.length + (2 ^ 64 - 2)) % 2 ^ 64 := by omega
    simp only [vnet_input, if_pos hfl, if_pos hcond]
    exact Option.some_ne_none _

/-- C6 amended, witness: a 4-byte payload with csum_start = 0 and
csum_offset = 2 is in bounds; the computed checksum of [10, 20, 30, 40]
is stored little-endian at offset 2 and the packet is delivered. -/
theorem vnet_input_bounds_witness :
    vnet_input ⟨1, 0, 2⟩ [10, 20, 30, 40] =
      some (storeU16le [10, 20, 30, 40] (0 + 2) (vnet_csum ([10, 20, 30, 40].drop 0))) :=
  (vnet_input_bounds ⟨1, 0, 2⟩ [10, 20, 30, 40] (by norm_num) (by norm_num)
    (by norm_num) (by decide)).1 (by norm_num) (by norm_num)

/-! ## pci_cfgenable -/

set_option maxRecDepth 4096 in
theorem mask_facts : ∀ n : Nat, n < 256 →
    n &&& 1 = n % 2 ∧ n &&& 3 = n % 4 ∧ n &&& 4294967295 = n := by decide

theorem umask_zero : ((((0 : Int) - 1) % 2 ^ 32).toNat : Nat) = 4294967295 := by decide

theorem umask_one : ((((1 : Int) - 1) % 2 ^ 32).toNat : Nat) = 0 := by decide

theorem umask_two : ((((2 : Int) - 1) % 2 ^ 32).toNat : Nat) = 1 := by decide

theorem umask_four : ((((4 : Int) - 1) % 2 ^ 32).toNat : Nat) = 3 := by decide

/-- C1 counterexample: the claim says pci_cfgenable returns 0 for every
bytes outside {1,2,4}; but for bytes = 0 and reg = 0 the alignment test
reg & (bytes - 1) is reg & 0xFFFFFFFF = 0, every other test passes, and
the function writes the enable pattern to port 0x0CF8 and returns the
nonzero data port 0x0CFC. -/
theorem pci_cfgenable_bytes_zero :
    pci_cfgenable 0 0 0 0 0 = (0xcfc, [(0xcf8, 2 ^ 31)]) ∧ (0xcfc : Nat) ≠ 0 := by
  decide

/-- C1 amended: with the device address in range (bus at most 255, slot at
most 31, function at most 7) and reg, bytes proper C ints,
pci_cfgenable accepts exactly reg in [0, 255] with bytes = 1, bytes = 2
and reg even, bytes = 4 and reg divisible by 4, or the degenerate
bytes = 0 with reg = 0 (accepted because the alignment test
reg & (bytes - 1) masks with 0xFFFFFFFF); in the accepted cases it writes
(1 << 31) | bus << 16 | slot << 11 | function << 8 | (reg & ~0x03) to port
0x0CF8 and returns 0x0CFC + (reg & 0x03), and in every other case it
returns 0 and performs no port write. -/
theorem pci_cfgenable_char (bus slot fn : Nat) (reg bytes : Int)
    (hbus : bus ≤ 255) (hslot : slot ≤ 31) (hfn : fn ≤ 7)
    (hr1 : -(2 ^ 31) ≤ reg) (hr2 : reg < 2 ^ 31)
    (hb1 : -(2 ^ 31) ≤ bytes) (hb2 : bytes < 2 ^ 31) :
    pci_cfgenable bus slot fn reg bytes =
      if 0 ≤ reg ∧ reg ≤ 255 ∧
          (bytes = 1 ∨ (bytes = 2 ∧ reg % 2 = 0) ∨ (bytes = 4 ∧ reg % 4 = 0) ∨
            (bytes = 0 ∧ reg = 0)) then
        (0xcfc + (reg % 4).toNat,
         [(0xcf8, 2 ^ 31 ||| (bus <<< 16) ||| (slot <<< 11) ||| (fn <<< 8) |||
                  (reg.toNat &&& 0xfffffffc))])
      else (0, [])
    := by
  by_cases hP : 0 ≤ reg ∧ reg ≤ 255 ∧
      (bytes = 1 ∨ (bytes = 2 ∧ reg % 2 = 0) ∨ (bytes = 4 ∧ reg % 4 = 0) ∨
        (bytes = 0 ∧ reg = 0))
  · rw [if_pos hP]
    obtain ⟨hr0, hr255, hbv⟩ := hP
    have hureg : (reg % 2 ^ 32).toNat = reg.toNat := by omega
    have hregN : reg.toNat < 256 := by omega
    have hm := mask_facts reg.toNat hregN
    have hport : reg.toNat &&& 3 = (reg % 4).toNat := by
      rw [hm.2.1]; omega
    simp only [pci_cfgenable, PCI_BUSMAX, PCI_SLOTMAX, PCI_FUNCMAX, PCI_REGMAX, hureg]
    rcases hbv with h1 | ⟨h2a, h2b⟩ | ⟨h4a, h4b⟩ | ⟨h0a, h0b⟩
    · subst h1
      rw [umask_one, if_pos ⟨hbus, hslot, hfn, by omega, by decide, by decide,
        Nat.and_zero _⟩, hport]
    · subst h2a
      have hal : reg.toNat &&& 1 = 0 := by rw [hm.1]; omega
      rw [umask_two, if_pos ⟨hbus, hslot, hfn, by omega, by decide, by decide,
        hal⟩, hport]
    · subst h4a
      have hal : reg.toNat &&& 3 = 0 := by rw [hm.2.1]; omega
      rw [umask_four, if_pos ⟨hbus, hslot, hfn, by omega, by decide, by decide,
        hal⟩, hport]
    · subst h0a
      have hal : reg.toNat &&& 4294967295 = 0 := by rw [hm.2.2]; omega
      rw [umask_zero, if_pos ⟨hbus, hslot, hfn, by omega, by decide, by decide,
        hal⟩, hport]
  · rw [if_neg hP]
    simp only [pci_cfgenable, PCI_BUSMAX, PCI_SLOTMAX, PCI_FUNCMAX, PCI_REGMAX]
    refine if_neg (fun hC => hP ?_)
    obtain ⟨_, _, _, hreg, hb3, hb4, hland⟩ := hC
    have hr0 : 0 ≤ reg := by omega
    have hr255 : reg ≤ 255 := by omega
    have hby0 : 0 ≤ bytes := by omega
    have hbyle : bytes ≤ 4 := by omega
    have hureg : (reg % 2 ^ 32).toNat = reg.toNat := by omega
    rw [hureg] at hland
    have hm := mask_facts reg.toNat (by omega)
    have hbcases : bytes = 0 ∨ bytes = 1 ∨ bytes = 2 ∨ bytes = 4 := by omega
    refine ⟨hr0, hr255, ?_⟩
    rcases hbcases with h | h | h | h <;> subst h
    · rw [umask_zero, hm.2.2] at hland
      exact Or.inr (Or.inr (Or.inr ⟨rfl, by omega⟩))
    · exact Or.inl rfl
    · rw [umask_two, hm.1] at hland
      exact Or.inr (Or.inl ⟨rfl, by omega⟩)
    · rw [umask_four, hm.2.1] at hland
      exact Or.inr (Or.inr (Or.inl ⟨rfl, by omega⟩))

/-- C1 amended, witness: at bus 1, slot 2, function 3, reg 0x11, bytes 1
the access is enabled, the enable pattern is written and the returned
data port is 0x0CFD. -/
theorem pci_cfgenable_char_witness :
    pci_cfgenable 1 2 3 0x11 1 =
      if (0 : Int) ≤ 0x11 ∧ (0x11 : Int) ≤ 255 ∧
          ((1 : Int) = 1 ∨ ((1 : Int) = 2 ∧ (0x11 : Int) % 2 = 0) ∨
            ((1 : Int) = 4 ∧ (0x11 : Int) % 4 = 0) ∨ ((1 : Int) = 0 ∧ (0x11 : Int) = 0)) then
        (0xcfc + ((0x11 : Int) % 4).toNat,
         [(0xcf8, 2 ^ 31 ||| (1 <<< 16) ||| (2 <<< 11) ||| (3 <<< 8) |||
                  ((0x11 : Int).toNat &&& 0xfffffffc))])
      else (0, []) :=
  pci_cfgenable_char 1 2 3 0x11 1 (by norm_num) (by norm_num) (by norm_num)
    (by norm_num) (by norm_num) (by norm_num) (by norm_num)

/-! ## io_setup -/

theorem io_setup_ok (ne rid : Nat) (init : List io_event) (h : ne ≠ 0) :
    io_setup true ne init rid = .ok
      { id := rid, nr := (ne + 1) % 2 ^ 32, head := 0, tail := 0,
        magic := AIO_RING_MAGIC, compat_features := 1, incompat_features := 0,
        header_length := 32, events := init } := by
  simp [io_setup, h]

/-- C2 counterexample: io_setup performs no store to the event area, so a
ring whose freshly mapped memory happens to hold a nonzero event slot is
returned with that slot unchanged, contradicting the claim that every
io_event slot is zeroed after io_setup. -/
theorem io_setup_events_not_zeroed :
    io_setup true 1 [⟨5, 6, 7, 8⟩] 0 =
      .ok { id := 0, nr := 2, head := 0, tail := 0, magic := AIO_RING_MAGIC,
            compat_features := 1, incompat_features := 0, header_length := 32,
            events := [⟨5, 6, 7, 8⟩] } ∧
    ¬ (∀ ev ∈ [io_event.mk 5 6 7 8], ev = ⟨0, 0, 0, 0⟩) := by
  refine ⟨?_, by decide⟩
  rw [io_setup_ok 1 0 [⟨5, 6, 7, 8⟩] (by decide)]
  norm_num

/-- C2 amended: for every nr_events > 0 (not wrapping the u32 slot count)
with a writable ctx_idp, io_setup returns 0 and leaves the mapped ring
with nr = nr_events + 1, head = tail = 0, magic = 0xA10A10A1,
compat_features = 1, incompat_features = 0, header_length = 0x20; the
event area keeps whatever the mapped memory held (io_setup does not
zero it). -/
theorem io_setup_header_init (ne rid : Nat) (init : List io_event)
    (h1 : 0 < ne) (h2 : ne + 1 < 2 ^ 32) :
    io_setup true ne init rid = .ok
      { id := rid, nr := ne + 1, head := 0, tail := 0,
        magic := AIO_RING_MAGIC, compat_features := 1, incompat_features := 0,
        header_length := 32, events := init } := by
  rw [io_setup_ok ne rid init (by omega), Nat.mod_eq_of_lt h2]

/-- C2 amended, witness: io_setup with nr_events = 1 on a one-slot initial
event area. -/
theorem io_setup_header_init_witness :
    io_setup true 1 [⟨5, 6, 7, 8⟩] 9 = .ok
      { id := 9, nr := 2, head := 0, tail := 0,
        magic := AIO_RING_MAGIC, compat_features := 1, incompat_features := 0,
        header_length := 32, events := [⟨5, 6, 7, 8⟩] } := by
  have h := io_setup_header_init 1 9 [⟨5, 6, 7, 8⟩] (by decide) (by norm_num)
  simpa using h

/-- C9: io_setup computes the slot count as nr_events + 1 in u32
arithmetic with no overflow check: for every accepted nr_events the nr
field of the ring is (nr_events + 1) mod 2^32, and the allocation and
mapping succeed as usual. -/
theorem io_setup_nr_wraps (ne rid : Nat) (init : List io_event) (h : ne ≠ 0) :
    (io_setup true ne init rid).map aio_ring_s.nr = .ok ((ne + 1) % 2 ^ 32) := by
  rw [io_setup_ok ne rid init h]
  rfl

/-- C9, witness: nr_events = 2^32 - 1 is accepted and yields a ring whose
nr field is 0. -/
theorem io_setup_nr_wraps_witness :
    (io_setup true (2 ^ 32 - 1) [] 3).map aio_ring_s.nr = .ok 0 := by
  have h := io_setup_nr_wraps (2 ^ 32 - 1) 3 [] (by norm_num)
  simpa using h

/-! ## iocb_enqueue admission -/

theorem aio_avail_eq (head tail nr : Nat) (hh : head < nr) (ht : tail < nr)
    (h2 : 2 ≤ nr) (hbig : nr ≤ 2 ^ 31) :
    aio_avail_events head tail nr = available_slots head tail nr ∧
      1 ≤ available_slots head tail nr ∧ available_slots head tail nr ≤ nr := by
  have hcode : aio_avail_events head tail nr =
      if head = tail then nr else if tail < head then head - tail
      else nr - (tail - head) := by
    simp only [aio_avail_events]
    split_ifs <;> omega
  have hspec : available_slots head tail nr =
      if head = tail then nr else if tail < head then head - tail
      else nr - (tail - head) := by
    unfold available_slots
    by_cases he : head = tail
    · subst he
      simp [Nat.add_sub_cancel, Nat.mod_self]
    · by_cases hlt : tail < head
      · have hmod : (head + nr - tail) % nr = head - tail := by
          have he2 : head + nr - tail = nr + (head - tail) := by omega
          rw [he2, Nat.add_mod_left]
          exact Nat.mod_eq_of_lt (by omega)
        rw [hmod, if_neg (by omega), if_neg he, if_pos hlt]
      · have hmod : (head + nr - tail) % nr = nr - (tail - head) := by
          have he2 : head + nr - tail = nr - (tail - head) := by omega
          rw [he2]
          exact Nat.mod_eq_of_lt (by omega)
        rw [hmod, if_neg (by omega), if_neg he, if_neg hlt]
  refine ⟨by rw [hcode, hspec], ?_, ?_⟩ <;> rw [hspec] <;> split_ifs <;> omega

/-- C3 counterexample: the claim quantifies over every AIO context, but
for nr = 2^31 + 2, head = 2^31 + 1, tail = 0 (both indices in [0, nr))
the u32 difference head - tail reinterpreted as a signed int in
aio_avail_events is negative, so the code computes avail = 3 and refuses
with EAGAIN already at ongoing_ops = 5, while the claim's formula gives
available_slots = 2^31 + 1 and so available_slots - 1 = 2^31, which does
not permit EAGAIN at ongoing_ops = 5. -/
theorem iocb_enqueue_signed_truncation :
    iocb_enqueue 5 (2 ^ 31 + 1) 0 (2 ^ 31 + 2) = none ∧
    available_slots (2 ^ 31 + 1) 0 (2 ^ 31 + 2) - 1 = 2 ^ 31 ∧
    ¬ (available_slots (2 ^ 31 + 1) 0 (2 ^ 31 + 2) - 1 ≤ 5) := by decide

/-- C3 amended: over a context with in-range indices (head, tail below
nr) and 2 <= nr <= 2^31 - on larger rings the signed 32-bit
reinterpretation of head - tail in aio_avail_events diverges from the
formula - an enqueue attempt is refused with EAGAIN exactly when
ongoing_ops is at least available_slots - 1, where available_slots is
(head - tail) mod nr taken as nr when the difference is zero; on the
accepted path ongoing_ops is incremented by exactly one and the admission
invariant ongoing_ops <= available_slots - 1 is preserved. -/
theorem iocb_enqueue_admission (ongoing head tail nr : Nat)
    (hh : head < nr) (ht : tail < nr) (hnr2 : 2 ≤ nr) (hbig : nr ≤ 2 ^ 31) :
    (iocb_enqueue ongoing head tail nr = none ↔
      available_slots head tail nr - 1 ≤ ongoing) ∧
    (ongoing < available_slots head tail nr - 1 →
      iocb_enqueue ongoing head tail nr = some (ongoing + 1) ∧
        ongoing + 1 ≤ available_slots head tail nr - 1) := by
  obtain ⟨heq, hlo, hhi⟩ := aio_avail_eq head tail nr hh ht hnr2 hbig
  unfold iocb_enqueue
  rw [heq]
  have hsub : (available_slots head tail nr + 2 ^ 32 - 1) % 2 ^ 32 =
      available_slots head tail nr - 1 := by omega
  rw [hsub]
  split_ifs with hc
  · exact ⟨by simp [hc], fun hlt2 => absurd hc (by omega)⟩
  · exact ⟨by simp [hc], fun hlt2 => ⟨rfl, by omega⟩⟩

/-- C3, witness: an empty ring with nr = 2 admits one operation: the
available slots are 2, EAGAIN is not taken at ongoing_ops = 0, and the
incremented count 1 still satisfies the invariant. -/
theorem iocb_enqueue_admission_witness :
    ((iocb_enqueue 0 0 0 2 = none ↔ available_slots 0 0 2 - 1 ≤ 0) ∧
      (0 < available_slots 0 0 2 - 1 →
        iocb_enqueue 0 0 0 2 = some (0 + 1) ∧ 0 + 1 ≤ available_slots 0 0 2 - 1)) :=
  iocb_enqueue_admission 0 0 0 2 (by norm_num) (by norm_num) (by norm_num)
    (by norm_num)

/-! ## aio_complete -/

/-- C4: aio_complete under the context lock decrements ongoing_ops by one,
clamps any tail at least nr down to 0, writes data, obj and res = rv into
the event slot at the clamped tail (leaving res2 as it was), and stores
back the clamped tail advanced by one modulo nr; the stored tail is below
nr for every initial ring tail, including corrupted ones. -/
theorem aio_complete_spec (nr ongoing tail0 data obj : Nat) (rv : Int)
    (events : List io_event) (hnr : 1 ≤ nr) (ho1 : 1 ≤ ongoing)
    (ho2 : ongoing < 2 ^ 32) :
    aio_complete_step nr ongoing tail0 events data obj rv =
      (ongoing - 1,
       ((if nr ≤ tail0 then 0 else tail0) + 1) % nr,
       events.set (if nr ≤ tail0 then 0 else tail0)
         { data := data, obj := obj, res := rv,
           res2 := (events.getD (if nr ≤ tail0 then 0 else tail0) ⟨0, 0, 0, 0⟩).res2 }) ∧
    ((if nr ≤ tail0 then 0 else tail0) + 1) % nr < nr := by
  have ht1 : (if nr ≤ tail0 then 0 else tail0) < nr := by split_ifs <;> omega
  have hadv : (if (if nr ≤ tail0 then 0 else tail0) + 1 = nr then 0
      else (if nr ≤ tail0 then 0 else tail0) + 1) =
      ((if nr ≤ tail0 then 0 else tail0) + 1) % nr := by
    by_cases h : (if nr ≤ tail0 then 0 else tail0) + 1 = nr
    · rw [if_pos h, h, Nat.mod_self]
    · rw [if_neg h, Nat.mod_eq_of_lt (by omega)]
  constructor
  · simp only [aio_complete_step, Prod.mk.injEq]
    exact ⟨by omega, hadv, trivial⟩
  · rw [← hadv]
    split_ifs <;> omega

/-- C4, witness: a completion on a two-slot ring with a corrupted ring
tail of 7: the tail is clamped to 0, the slot written at index 0, and
the stored tail 1 is in range. -/
theorem aio_complete_spec_witness :
    aio_complete_step 2 1 7 [⟨0, 0, 0, 9⟩, ⟨0, 0, 0, 8⟩] 5 6 7 =
      (0,
       ((if 2 ≤ 7 then 0 else 7) + 1) % 2,
       [io_event.mk 0 0 0 9, ⟨0, 0, 0, 8⟩].set (if 2 ≤ 7 then 0 else 7)
         { data := 5, obj := 6, res := 7,
           res2 := ([io_event.mk 0 0 0 9, ⟨0, 0, 0, 8⟩].getD
             (if 2 ≤ 7 then 0 else 7) ⟨0, 0, 0, 0⟩).res2 }) ∧
    ((if 2 ≤ 7 then 0 else 7) + 1) % 2 < 2 := by
  have h := aio_complete_spec 2 1 7 5 6 7 [⟨0, 0, 0, 9⟩, ⟨0, 0, 0, 8⟩]
    (by norm_num) (by norm_num) (by norm_num)
  simpa using h

/-- C10: aio_complete writes only the data, obj and res fields of the
event slot, so the res2 value at every index of the event area is
unchanged by a completion; and io_setup leaves the event area exactly as
the mapped memory was, so the kernel never stores res2 over the life of a
context. -/
theorem aio_res2_never_written (nr ongoing tail0 data obj : Nat) (rv : Int)
    (events : List io_event) (i : Nat) (w : Bool) (ne rid : Nat)
    (init : List io_event) :
    ((aio_complete_step nr ongoing tail0 events data obj rv).2.2.getD i
        ⟨0, 0, 0, 0⟩).res2 = (events.getD i ⟨0, 0, 0, 0⟩).res2 ∧
    (io_setup w ne init rid).map aio_ring_s.events =
      (io_setup w ne init rid).map (fun _ => init) := by
  constructor
  · simp only [aio_complete_step]
    simp only [List.getD_eq_getElem?_getD, List.getElem?_set]
    by_cases he : (if nr ≤ tail0 then 0 else tail0) = i
    · rw [if_pos he]
      subst he
      by_cases hlen : (if nr ≤ tail0 then 0 else tail0) < events.length
      · rw [if_pos hlen]
        simp only [Option.getD_some]
      · rw [if_neg hlen]
        rw [List.getElem?_eq_none (by omega :
          events.length ≤ if nr ≤ tail0 then 0 else tail0)]
    · rw [if_neg he]
  · simp only [io_setup]
    split_ifs <;> rfl

/-! ## io_getevents entry path -/

/-- C5: evaluation of the embedded entry path at the failing input: with
valid user memory and a context id that does not name a live context,
io_getevents returns -EFAULT (the null dereference of the absent context
in aio_from_ring_id, taken by the active error frame), not the -EINVAL
the claim requires; the nr checks do return -EINVAL when the context is
live. -/
theorem io_getevents_unknown_ctx :
    io_getevents true false 1 1 = -EFAULT ∧ io_getevents true true 1 0 = -EINVAL ∧
      -EFAULT ≠ -EINVAL := by decide

/-! ## io_submit -/

theorem io_submit_go_none : ∀ (rest : List Int) (i : Nat),
    firstFailure rest = none → io_submit_go i rest = ((i + rest.length : Nat) : Int)
  | [], i, _ => by simp [io_submit_go]
  | rv :: rest2, i, h => by
    by_cases hz : rv = 0
    · subst hz
      have hf2 : firstFailure rest2 = none := by
        by_contra hne
        rcases Option.ne_none_iff_exists.1 hne with ⟨p, hp⟩
        simp [firstFailure, ← hp] at h
      rw [show io_submit_go i ((0 : Int) :: rest2) = io_submit_go (i + 1) rest2 from by
        simp [io_submit_go]]
      rw [io_submit_go_none rest2 (i + 1) hf2]
      simp only [List.length_cons]
      congr 1
      omega
    · simp [firstFailure, hz] at h

theorem io_submit_go_fail : ∀ (rest : List Int) (i j : Nat) (rv : Int),
    firstFailure rest = some (j, rv) →
    io_submit_go i rest = if i + j = 0 then rv else ((i + j : Nat) : Int)
  | [], i, j, rv, h => by simp [firstFailure] at h
  | rv2 :: rest2, i, j, rv, h => by
    rw [show firstFailure (rv2 :: rest2) =
        (if rv2 ≠ 0 then some (0, rv2)
         else (firstFailure rest2).map (fun p => (p.1 + 1, p.2))) from rfl] at h
    by_cases hz : rv2 = 0
    · subst hz
      rw [if_neg (by simp)] at h
      rcases hf2 : firstFailure rest2 with _ | ⟨k, rv3⟩
      · rw [hf2, Option.map_none'] at h
        exact absurd h (by simp)
      · rw [hf2, Option.map_some'] at h
        simp only [Option.some.injEq, Prod.mk.injEq] at h
        obtain ⟨hj1, hj2⟩ := h
        subst hj1
        subst hj2
        rw [show io_submit_go i ((0 : Int) :: rest2) = io_submit_go (i + 1) rest2 from by
          simp [io_submit_go]]
        rw [io_submit_go_fail rest2 (i + 1) k rv3 hf2]
        rw [if_neg (by omega), if_neg (by omega)]
        congr 1
        omega
    · rw [if_pos hz] at h
      simp only [Option.some.injEq, Prod.mk.injEq] at h
      obtain ⟨hj1, hj2⟩ := h
      subst hj1
      subst hj2
      rw [show io_submit_go i (rv2 :: rest2) = if i = 0 then rv2 else (i : Int) from by
        simp [io_submit_go, hz]]
      by_cases hi : i = 0
      · rw [if_pos hi, if_pos (by omega)]
      · rw [if_neg hi, if_neg (by omega)]
        simp

/-- C8: io_submit over a valid context returns, given the outcomes of the
successive enqueue attempts for the requested iocbs: the negative error
itself when the very first enqueue fails, the count of iocbs submitted
before the first failing one otherwise, and the full count when every
enqueue succeeds. -/
theorem io_submit_first_failure (rs : List Int) :
    io_submit rs =
      match firstFailure rs with
      | none => (rs.length : Int)
      | some (0, rv) => rv
      | some (j + 1, _) => ((j : Int) + 1) := by
  rcases hf : firstFailure rs with _ | ⟨j, rv⟩
  · rw [io_submit, io_submit_go_none rs 0 hf]
    simp
  · rcases j with _ | k
    · rw [io_submit, io_submit_go_fail rs 0 0 rv hf]
      simp
    · rw [io_submit, io_submit_go_fail rs 0 (k + 1) rv hf]
      rw [if_neg (by omega)]
      push_cast
      ring

end NanosSpec
